import Mathlib

/-!
Verification of the logyard server (src/main.go) against its specification.

The Tail Session read loop, the Source Catalog Builder, the path resolvers, the
listing-page renderer and the streaming endpoint handler are embedded shallowly:
bytes are naturals, file content is a list of bytes, the filesystem is an abstract
stat function plus an abstract directory-walk visit sequence, and the stateful read
loop becomes explicit carry-over passing.
-/

namespace Logyard

/-- A byte of log content. -/
abbrev Byte := Nat

/-- The line terminator byte, newline. -/
def NL : Byte := 10

/-- Embeds bytes.Join of the partial-line carry-over with freshly read bytes
(src/main.go lines 483-487, 494 and 505); a nil carry-over slice is none. -/
def joinCarry (carry : Option (List Byte)) (l : List Byte) : List Byte :=
  match carry with
  | none => l
  | some p => p ++ l

/-- The inner read loop of streamLogFile over the bytes currently available in the
file (src/main.go lines 479-509), healthy path only. acc holds the bytes that the
pending bufio.ReadBytes call has consumed so far without meeting a newline. On a
newline the completed line (terminator included, exactly as bufio.ReadBytes returns
it) is joined with the carry-over, which is cleared, and the result is delivered as
one message. When the available bytes run out, ReadBytes reports the end of file
together with the bytes read so far, and a non-empty such remainder is stored into
the carry-over (lines 481-490). Returns the messages delivered in this cycle, in
order, and the new carry-over. -/
def readLoop (carry : Option (List Byte)) (acc : List Byte) :
    List Byte → List (List Byte) × Option (List Byte)
  | [] => ([], if acc ≠ [] then some (joinCarry carry acc) else carry)
  | b :: bs =>
    if b = NL then
      let rest := readLoop none [] bs
      (joinCarry carry (acc ++ [NL]) :: rest.1, rest.2)
    else
      readLoop carry (acc ++ [b]) bs

/-- One poll cycle of the read phase (src/main.go lines 479-509). -/
def readAvail (carry : Option (List Byte)) (input : List Byte) :
    List (List Byte) × Option (List Byte) :=
  readLoop carry [] input

/-- The healthy Tail Session across successive poll cycles (src/main.go lines
468-512): each chunk is the run of bytes newly appended to the file and observed in
one poll cycle; the carry-over persists across cycles. Returns all delivered
messages in order, and the final carry-over. -/
def runChunks (carry : Option (List Byte)) :
    List (List Byte) → List (List Byte) × Option (List Byte)
  | [] => ([], carry)
  | c :: cs =>
    let r := readAvail carry c
    let rest := runChunks r.2 cs
    (r.1 ++ rest.1, rest.2)

/-- A session that, after the healthy cycles cs, hits a read error other than the
end of file, with errBytes the bytes the failing ReadBytes call had read before the
error (src/main.go lines 492-503): the carry-over joined with those bytes is sent as
one final message when non-empty, and the session terminates. Returns every message
the session delivered. -/
def runFatal (cs : List (List Byte)) (errBytes : List Byte) : List (List Byte) :=
  let r := runChunks none cs
  let last := joinCarry r.2 errBytes
  r.1 ++ (if last = [] then [] else [last])

/-- Reference splitter over a whole byte sequence: the newline-terminated lines of
the sequence, each keeping its terminator just as bufio.ReadBytes keeps it, paired
with the trailing unterminated rest. -/
def splitKeep : List Byte → List (List Byte) × List Byte
  | [] => ([], [])
  | b :: bs =>
    if b = NL then ([NL] :: (splitKeep bs).1, (splitKeep bs).2)
    else
      match splitKeep bs with
      | ([], r) => ([], b :: r)
      | (l :: ls, r) => ((b :: l) :: ls, r)

/-- The byte sequence of an ASCII string. -/
def strBytes (s : String) : List Byte := s.toList.map Char.toNat

/-- The bytes held by a carry-over value. -/
def carryBytes : Option (List Byte) → List Byte
  | none => []
  | some p => p

/-- The carry-over representing a given trailing rest: nil for no rest. -/
def packCarry (r : List Byte) : Option (List Byte) :=
  if r = [] then none else some r

/-- The invariant of reachable carry-over values: a non-nil carry-over is a
non-empty run of bytes containing no newline. -/
def CarryInv : Option (List Byte) → Prop
  | none => True
  | some p => p ≠ [] ∧ NL ∉ p

theorem splitKeep_no_nl (l : List Byte) (h : NL ∉ l) : splitKeep l = ([], l) := by
  induction l with
  | nil => rfl
  | cons b bs ih =>
    have hb : b ≠ NL := fun hh => h (hh ▸ List.mem_cons_self b bs)
    have hbs : NL ∉ bs := fun hh => h (List.mem_cons_of_mem b hh)
    simp only [splitKeep, if_neg (fun hh => hb hh), ih hbs]

theorem splitKeep_prepend (p : List Byte) (hp : NL ∉ p) (c : List Byte) :
    splitKeep (p ++ c) =
      match splitKeep c with
      | ([], r) => ([], p ++ r)
      | (l :: ls, r) => ((p ++ l) :: ls, r) := by
  induction p with
  | nil =>
    rcases h : splitKeep c with ⟨ls, r⟩
    cases ls <;> simp [h]
  | cons x xs ih =>
    have hx : x ≠ NL := fun hh => hp (hh ▸ List.mem_cons_self x xs)
    have hxs : NL ∉ xs := fun hh => hp (List.mem_cons_of_mem x hh)
    rcases h : splitKeep c with ⟨ls, r⟩
    cases ls with
    | nil =>
      have ihx := ih hxs
      rw [h] at ihx
      have ihx2 : splitKeep (xs ++ c) = ([], xs ++ r) := ihx
      simp only [List.cons_append, splitKeep, if_neg (fun hh => hx hh), List.append_eq, ihx2]
    | cons l ls2 =>
      have ihx := ih hxs
      rw [h] at ihx
      have ihx2 : splitKeep (xs ++ c) = ((xs ++ l) :: ls2, r) := ihx
      simp only [List.cons_append, splitKeep, if_neg (fun hh => hx hh), List.append_eq, ihx2]

theorem splitKeep_rest_no_nl (l : List Byte) : NL ∉ (splitKeep l).2 := by
  induction l with
  | nil => simp [splitKeep]
  | cons b bs ih =>
    by_cases hb : b = NL
    · simp only [splitKeep, if_pos hb]
      exact ih
    · simp only [splitKeep, if_neg hb]
      rcases h : splitKeep bs with ⟨ls, r⟩
      rw [h] at ih
      cases ls with
      | nil =>
        simp only []
        intro hmem
        rcases List.mem_cons.mp hmem with h1 | h2
        · exact hb h1.symm
        · exact ih h2
      | cons l ls2 => simpa using ih

theorem splitKeep_msgs_end_nl (l : List Byte) :
    ∀ m ∈ (splitKeep l).1, m.getLast? = some NL := by
  induction l with
  | nil => simp [splitKeep]
  | cons b bs ih =>
    by_cases hb : b = NL
    · simp only [splitKeep, if_pos hb]
      intro m hm
      rcases List.mem_cons.mp hm with h1 | h2
      · subst h1; rfl
      · exact ih m h2
    · simp only [splitKeep, if_neg hb]
      rcases h : splitKeep bs with ⟨ls, r⟩
      rw [h] at ih
      cases ls with
      | nil => simp
      | cons l0 ls2 =>
        simp only []
        intro m hm
        rcases List.mem_cons.mp hm with h1 | h2
        · subst h1
          have hl0 := ih l0 (List.mem_cons_self l0 ls2)
          have hl0ne : l0 ≠ [] := by
            intro hnil; rw [hnil] at hl0; simp at hl0
          obtain ⟨x, xs, rfl⟩ := List.exists_cons_of_ne_nil hl0ne
          rw [List.getLast?_cons_cons]
          exact hl0
        · exact ih m (List.mem_cons_of_mem l0 h2)

theorem joinCarry_eq (carry : Option (List Byte)) (l : List Byte) :
    joinCarry carry l = carryBytes carry ++ l := by
  cases carry <;> rfl

theorem carry_no_nl (carry : Option (List Byte)) (h : CarryInv carry) :
    NL ∉ carryBytes carry := by
  cases carry with
  | none => simp [carryBytes]
  | some p => exact h.2

theorem readLoop_spec (input : List Byte) :
    ∀ (carry : Option (List Byte)) (acc : List Byte), CarryInv carry → NL ∉ acc →
    readLoop carry acc input =
      ((splitKeep ((carryBytes carry ++ acc) ++ input)).1,
       packCarry (splitKeep ((carryBytes carry ++ acc) ++ input)).2) := by
  induction input with
  | nil =>
    intro carry acc hc hacc
    have hno : NL ∉ (carryBytes carry ++ acc) ++ ([] : List Byte) := by
      simp only [List.append_nil]
      intro hmem
      rcases List.mem_append.mp hmem with h1 | h2
      · exact carry_no_nl carry hc h1
      · exact hacc h2
    rw [splitKeep_no_nl _ hno]
    simp only [readLoop, List.append_nil, joinCarry_eq]
    by_cases ha : acc = []
    · subst ha
      simp only [ne_eq, not_true_eq_false, if_false, List.append_nil]
      cases carry with
      | none => simp [carryBytes, packCarry]
      | some p => simp [carryBytes, packCarry, hc.1]
    · have hne : carryBytes carry ++ acc ≠ [] := by
        intro hx
        exact ha (List.append_eq_nil.mp hx).2
      simp [ha, packCarry, hne]
  | cons b bs ih =>
    intro carry acc hc hacc
    by_cases hb : b = NL
    · subst hb
      have ihx := ih none [] trivial (by simp)
      simp only [carryBytes, List.nil_append, List.append_nil] at ihx
      have hpacc : NL ∉ carryBytes carry ++ acc := by
        intro hmem
        rcases List.mem_append.mp hmem with h1 | h2
        · exact carry_no_nl carry hc h1
        · exact hacc h2
      have hsp := splitKeep_prepend (carryBytes carry ++ acc) hpacc (NL :: bs)
      have hnl : splitKeep (NL :: bs) = ([NL] :: (splitKeep bs).1, (splitKeep bs).2) := by
        simp [splitKeep]
      rw [hnl] at hsp
      simp only [] at hsp
      simp only [readLoop, if_pos rfl, ihx, hsp, joinCarry_eq]
      simp [List.append_assoc]
    · have hacc2 : NL ∉ acc ++ [b] := by
        intro hmem
        rcases List.mem_append.mp hmem with h1 | h2
        · exact hacc h1
        · exact hb (List.mem_singleton.mp h2).symm
      simp only [readLoop, if_neg hb]
      rw [ih carry (acc ++ [b]) hc hacc2]
      have hlist : (carryBytes carry ++ (acc ++ [b])) ++ bs =
          (carryBytes carry ++ acc) ++ (b :: bs) := by
        simp [List.append_assoc]
      rw [hlist]

theorem packCarry_inv (r : List Byte) (h : NL ∉ r) : CarryInv (packCarry r) := by
  unfold packCarry
  by_cases hr : r = []
  · simp [hr, CarryInv]
  · simp only [if_neg hr, CarryInv]
    exact ⟨hr, h⟩

theorem carryBytes_packCarry (r : List Byte) : carryBytes (packCarry r) = r := by
  unfold packCarry
  by_cases hr : r = [] <;> simp [hr, carryBytes]

theorem joinCarry_packCarry (r e : List Byte) : joinCarry (packCarry r) e = r ++ e := by
  unfold packCarry
  by_cases hr : r = [] <;> simp [hr, joinCarry]

theorem readAvail_spec (carry : Option (List Byte)) (input : List Byte) (h : CarryInv carry) :
    readAvail carry input =
      ((splitKeep (carryBytes carry ++ input)).1,
       packCarry (splitKeep (carryBytes carry ++ input)).2) := by
  have hx := readLoop_spec input carry [] h (by simp)
  simpa [readAvail] using hx

theorem splitKeep_append (a b : List Byte) :
    splitKeep (a ++ b) =
      ((splitKeep a).1 ++ (splitKeep ((splitKeep a).2 ++ b)).1,
       (splitKeep ((splitKeep a).2 ++ b)).2) := by
  induction a with
  | nil => simp [splitKeep]
  | cons x xs ih =>
    by_cases hx : x = NL
    · subst hx
      have hL : splitKeep ((NL :: xs) ++ b) =
          ([NL] :: (splitKeep (xs ++ b)).1, (splitKeep (xs ++ b)).2) := by
        simp [splitKeep]
      have hA : splitKeep (NL :: xs) = ([NL] :: (splitKeep xs).1, (splitKeep xs).2) := by
        simp [splitKeep]
      rw [hL, hA, ih]
      simp
    · rcases h : splitKeep xs with ⟨ls, r⟩
      rw [h] at ih
      have hL : splitKeep ((x :: xs) ++ b) =
          match splitKeep (xs ++ b) with
          | ([], r2) => ([], x :: r2)
          | (l :: ls4, r2) => ((x :: l) :: ls4, r2) := by
        simp only [List.cons_append, splitKeep, if_neg hx, List.append_eq]
      cases ls with
      | nil =>
        have hA : splitKeep (x :: xs) = ([], x :: r) := by
          simp [splitKeep, if_neg hx, h]
        have ihEq : splitKeep (xs ++ b) = splitKeep (r ++ b) := by
          rw [ih]
          simp
        have hR : splitKeep ((x :: r) ++ b) =
            match splitKeep (r ++ b) with
            | ([], r2) => ([], x :: r2)
            | (l :: ls4, r2) => ((x :: l) :: ls4, r2) := by
          simp only [List.cons_append, splitKeep, if_neg hx, List.append_eq]
        rw [hA]
        simp only [List.nil_append]
        rw [hL, hR, ihEq]
      | cons l ls2 =>
        have hA : splitKeep (x :: xs) = ((x :: l) :: ls2, r) := by
          simp [splitKeep, if_neg hx, h]
        have ihEq : splitKeep (xs ++ b) =
            (l :: (ls2 ++ (splitKeep (r ++ b)).1), (splitKeep (r ++ b)).2) := by
          rw [ih]
          simp
        rw [hA, hL, ihEq]
        simp

theorem runChunks_spec (cs : List (List Byte)) :
    ∀ (carry : Option (List Byte)), CarryInv carry →
    runChunks carry cs =
      ((splitKeep (carryBytes carry ++ cs.flatten)).1,
       packCarry (splitKeep (carryBytes carry ++ cs.flatten)).2) := by
  induction cs with
  | nil =>
    intro carry hc
    simp only [runChunks, List.flatten_nil, List.append_nil]
    rw [splitKeep_no_nl _ (carry_no_nl carry hc)]
    cases carry with
    | none => simp [carryBytes, packCarry]
    | some p => simp [carryBytes, packCarry, hc.1]
  | cons c cs ih =>
    intro carry hc
    simp only [runChunks]
    rw [readAvail_spec carry c hc]
    have hinv : CarryInv (packCarry (splitKeep (carryBytes carry ++ c)).2) :=
      packCarry_inv _ (splitKeep_rest_no_nl _)
    rw [ih _ hinv, carryBytes_packCarry]
    have hap := splitKeep_append (carryBytes carry ++ c) cs.flatten
    have hsh : (carryBytes carry ++ c) ++ cs.flatten =
        carryBytes carry ++ (c :: cs).flatten := by
      simp [List.flatten_cons, List.append_assoc]
    rw [hsh] at hap
    rw [hap]

/-- C1: counterexample. Feeding the bytes of "line A\nline B\n" as the two chunks
"line A\nli" then "ne B\n" does not deliver the two messages "line A" and "line B":
bufio.ReadBytes keeps the delimiter, so streamLogFile delivers each line with its
terminator included (src/main.go lines 480 and 508). -/
theorem c1_counterexample :
    (runChunks none [strBytes "line A\nli", strBytes "ne B\n"]).1 ≠
      [strBytes "line A", strBytes "line B"] := by
  decide

/-- C1 (amended): for every byte sequence appended to a tailed file, however it is
split across poll-cycle reads, the Tail Session delivers the same sequence of
messages as splitting the whole sequence on the line terminator with the terminator
INCLUDED in each delivered message; the input "line A\nline B\n" fed as the two
chunks "line A\nli" then "ne B\n" is delivered as exactly the two messages
"line A\n" and "line B\n". -/
theorem c1_amended :
    (∀ cs : List (List Byte), (runChunks none cs).1 = (splitKeep cs.flatten).1) ∧
    (runChunks none [strBytes "line A\nli", strBytes "ne B\n"]).1 =
      [strBytes "line A\n", strBytes "line B\n"] := by
  constructor
  · intro cs
    have h := runChunks_spec cs none trivial
    rw [h]
    simp [carryBytes]
  · decide

/-- C5: in every healthy state of a Tail Session, an unterminated trailing fragment
is never delivered: every message a healthy run delivers ends with the terminator.
Moreover, when a later read supplies the completing terminator, the pending fragment
is delivered as the prefix of that next message. -/
theorem c5_no_premature :
    (∀ (cs : List (List Byte)), ∀ m ∈ (runChunks none cs).1, m.getLast? = some NL) ∧
    (∀ (p c l r : List Byte) (ls : List (List Byte)),
      p ≠ [] → NL ∉ p → splitKeep c = (l :: ls, r) →
      readAvail (some p) c = ((p ++ l) :: ls, packCarry r)) := by
  constructor
  · intro cs m hm
    have h := runChunks_spec cs none trivial
    rw [h] at hm
    simp only [carryBytes, List.nil_append] at hm
    exact splitKeep_msgs_end_nl _ m hm
  · intro p c l r ls hp hnl hsp
    have h := readAvail_spec (some p) c ⟨hp, hnl⟩
    have hpre := splitKeep_prepend p hnl c
    rw [hsp] at hpre
    have hpre2 : splitKeep (p ++ c) = ((p ++ l) :: ls, r) := hpre
    rw [h]
    simp only [carryBytes]
    rw [hpre2]

/-- C5 witness: concrete instances of both parts of c5_no_premature. -/
theorem c5_witness :
    ([97, NL] : List Byte).getLast? = some NL ∧
    readAvail (some [99]) [100, NL] = ([[99, 100, NL]], none) := by
  constructor
  · exact c5_no_premature.1 [[97, NL]] [97, NL] (by decide)
  · have h := c5_no_premature.2 [99] [100, NL] [100, NL] [] [] (by decide) (by decide)
      (by decide)
    simpa [packCarry] using h

/-- C6: when a read fails with an error other than end-of-file, the session delivers
the concatenation of the pending carry-over and the partially read bytes as one
final message exactly when it is non-empty, and terminates; every message delivered
on the healthy path before that point carries its terminator, so the fatal flush is
the only delivery of an incomplete line. -/
theorem c6_fatal_flush :
    ∀ (cs : List (List Byte)) (errBytes : List Byte),
      runFatal cs errBytes =
        (splitKeep cs.flatten).1 ++
          (if (splitKeep cs.flatten).2 ++ errBytes = [] then []
           else [(splitKeep cs.flatten).2 ++ errBytes]) ∧
      (∀ m ∈ (runChunks none cs).1, m.getLast? = some NL) := by
  intro cs errBytes
  have h := runChunks_spec cs none trivial
  simp only [carryBytes, List.nil_append] at h
  constructor
  · simp only [runFatal]
    rw [h]
    simp only [joinCarry_packCarry]
  · intro m hm
    rw [h] at hm
    exact splitKeep_msgs_end_nl _ m hm

/-- C6 witness: a session that read "a\nb" across its healthy cycles and then fails
while holding "b" plus the error-read byte "c" flushes "bc" as the final message. -/
theorem c6_witness :
    runFatal [[97, NL, 98]] [99] = [[97, NL], [98, 99]] ∧
    ([97, NL] : List Byte).getLast? = some NL := by
  have h := c6_fatal_flush [[97, NL, 98]] [99]
  exact ⟨h.1.trans (by decide), h.2 [97, NL] (by decide)⟩

/-- Embeds strings.HasSuffix through the character lists of the two strings. -/
def hasSuffixStr (s suf : String) : Bool := suf.toList.isSuffixOf s.toList

/-- The part of an os.FileInfo value the catalog code reads: Name() and IsDir(). -/
structure FileInfo where
  name : String
  isDir : Bool
deriving DecidableEq

/-- Embeds RawSourceDescriptor (src/main.go lines 131-143). -/
structure RawSourceDescriptor where
  rawPath : String
  absPath : String
  valid : Bool
deriving DecidableEq

/-- Embeds ValidSourceDescriptor (src/main.go lines 146-156); the Go field sub is a
nil-able pointer to a slice of descriptors, modelled as an optional list. -/
inductive ValidSourceDescriptor where
  | mk (path : String) (info : FileInfo) (sub : Option (List ValidSourceDescriptor))

/-- The path field of a descriptor. -/
def ValidSourceDescriptor.path : ValidSourceDescriptor → String
  | .mk p _ _ => p

/-- The info field of a descriptor. -/
def ValidSourceDescriptor.info : ValidSourceDescriptor → FileInfo
  | .mk _ i _ => i

/-- The sub field of a descriptor. -/
def ValidSourceDescriptor.sub : ValidSourceDescriptor → Option (List ValidSourceDescriptor)
  | .mk _ _ s => s

/-- One visit of the filepath.WalkDir callback in statSources (src/main.go lines
360-380): the callback is invoked either for a path with a nil error, or with a
non-nil walk error at a path. -/
inductive WalkEvent where
  | entry (path : String)
  | failure (path : String)
deriving DecidableEq

/-- Whether a visit is an error visit. -/
def WalkEvent.isFailure : WalkEvent → Bool
  | .entry _ => false
  | .failure _ => true

/-- The walk callback of statSources folded over the visit sequence (src/main.go
lines 360-380). On a walk error the callback returns that error, and by the
filepath.WalkDir contract a non-nil return from the callback stops the entire walk,
so no later visit happens (the code logs Aborting walk of the root). A visited path
carrying the log suffix is stat-ed and appended as a child with a nil sub pointer;
there is no check that the path is not itself a directory. A stat failure skips just
that path. -/
def walkCollect (stat : String → Option FileInfo) : List WalkEvent → List ValidSourceDescriptor
  | [] => []
  | WalkEvent.failure _ :: _ => []
  | WalkEvent.entry p :: rest =>
    (if hasSuffixStr p ".log" then
      match stat p with
      | none => []
      | some f => [ValidSourceDescriptor.mk p f none]
     else []) ++ walkCollect stat rest

/-- Embeds statSources (src/main.go lines 338-384) over an abstract filesystem:
stat gives the os.Stat outcome per path and walk gives the WalkDir visit sequence
per directory root. Per raw source: invalid sources are skipped; a stat failure
skips the source; a path that neither carries the log suffix nor is a directory is
skipped with a warning; a non-directory path hits the continue at lines 355-357 and
is therefore also skipped (never appended); a directory is recorded with the
children its walk collected. -/
def statSources (stat : String → Option FileInfo) (walk : String → List WalkEvent) :
    List RawSourceDescriptor → List ValidSourceDescriptor
  | [] => []
  | src :: rest =>
    if !src.valid then statSources stat walk rest
    else
      match stat src.absPath with
      | none => statSources stat walk rest
      | some i =>
        if !hasSuffixStr i.name ".log" && !i.isDir then statSources stat walk rest
        else if !i.isDir then statSources stat walk rest
        else
          ValidSourceDescriptor.mk src.absPath i
              (some (walkCollect stat (walk src.absPath))) ::
            statSources stat walk rest

/-- The sources for which buildServer registers endpoints (src/main.go lines
408-419): a directory source contributes its children with directory children
filtered out, any other source contributes itself. A directory source whose sub
pointer is nil would make the Go code panic; it contributes nothing here and is
unreachable from statSources output. -/
def endpointSources : List ValidSourceDescriptor → List ValidSourceDescriptor
  | [] => []
  | vsd :: rest =>
    (if vsd.info.isDir then
      match vsd.sub with
      | some subs => subs.filter (fun s => !s.info.isDir)
      | none => []
     else [vsd]) ++ endpointSources rest

/-- C2: a valid raw source that stats as a regular file named with the log suffix is
dropped by statSources: the non-directory branch falls into continue (src/main.go
lines 355-357) before the append at line 381, so no leaf ValidSource is recorded,
even though buildServer (line 417) and buildHome (line 550) both have non-directory
branches that expect such a leaf. -/
theorem c2_file_source_dropped :
    statSources
      (fun p => if p = "/logs/a.log" then some ⟨"a.log", false⟩ else none)
      (fun _ => [])
      [⟨"/logs/a.log", "/logs/a.log", true⟩] = [] := by
  rfl

/-- C3: counterexample. In a walk that visits a log file, then fails at a path, then
would visit a sibling log file outside the failed subtree, the sibling is not
collected: the callback returning the error aborts the entire remaining walk, so the
walk does not continue with sibling entries. -/
theorem c3_counterexample :
    (walkCollect
        (fun p =>
          if p = "/d/a.log" then some ⟨"a.log", false⟩
          else if p = "/d/sib/b.log" then some ⟨"b.log", false⟩ else none)
        [WalkEvent.entry "/d/a.log", WalkEvent.failure "/d/bad",
         WalkEvent.entry "/d/sib/b.log"]).map ValidSourceDescriptor.path
      = ["/d/a.log"] := by
  rfl

/-- C3 (amended): a walk error at a path aborts the entire remaining walk of that
source, not only the failed subtree: children discovered before the error are kept
and nothing after the error event is visited; and the overall catalog build does not
fail, since a directory source is always recorded with exactly the children its walk
collected while the remaining raw sources are processed unchanged. -/
theorem c3_amended :
    (∀ (stat : String → Option FileInfo) (pre post : List WalkEvent) (q : String),
      (∀ e ∈ pre, e.isFailure = false) →
      walkCollect stat (pre ++ WalkEvent.failure q :: post) = walkCollect stat pre) ∧
    (∀ (stat : String → Option FileInfo) (walk : String → List WalkEvent)
        (src : RawSourceDescriptor) (rest : List RawSourceDescriptor) (i : FileInfo),
      src.valid = true → stat src.absPath = some i → i.isDir = true →
      statSources stat walk (src :: rest) =
        ValidSourceDescriptor.mk src.absPath i
            (some (walkCollect stat (walk src.absPath))) ::
          statSources stat walk rest) := by
  constructor
  · intro stat pre post q hpre
    induction pre with
    | nil => rfl
    | cons e pre ih =>
      cases e with
      | entry p =>
        have hrest : ∀ x ∈ pre, x.isFailure = false := fun x hx =>
          hpre x (List.mem_cons_of_mem _ hx)
        simp only [List.cons_append, walkCollect, List.append_eq, ih hrest]
      | failure p =>
        have hf := hpre (WalkEvent.failure p) (List.mem_cons_self _ _)
        simp [WalkEvent.isFailure] at hf
  · intro stat walk src rest i hv hs hd
    simp only [statSources, hv, hs, hd, Bool.not_true, Bool.and_false, if_false]
    rfl

/-- C3 witness: concrete instances of both parts of c3_amended. -/
theorem c3_witness :
    walkCollect (fun _ => some ⟨"a.log", false⟩)
        ([WalkEvent.entry "/d/a.log"] ++ WalkEvent.failure "/d/bad" :: [WalkEvent.entry "/d/c.log"])
      = walkCollect (fun _ => some ⟨"a.log", false⟩) [WalkEvent.entry "/d/a.log"] ∧
    statSources (fun _ => some ⟨"d", true⟩) (fun _ => [WalkEvent.failure "/d/bad"])
        [⟨"/d", "/d", true⟩]
      = [ValidSourceDescriptor.mk "/d" ⟨"d", true⟩
          (some (walkCollect (fun _ => some ⟨"d", true⟩) [WalkEvent.failure "/d/bad"]))] := by
  constructor
  · exact c3_amended.1 (fun _ => some ⟨"a.log", false⟩) [WalkEvent.entry "/d/a.log"]
      [WalkEvent.entry "/d/c.log"] "/d/bad" (by decide)
  · exact c3_amended.2 (fun _ => some ⟨"d", true⟩) (fun _ => [WalkEvent.failure "/d/bad"])
      ⟨"/d", "/d", true⟩ [] ⟨"d", true⟩ rfl rfl rfl

/-- C7: counterexample. A directory whose own name ends in the log suffix is
appended by the walk callback as a child with a directory file-info: children of a
directory-typed ValidSource are not always non-directory leaves. -/
theorem c7_counterexample :
    ((walkCollect (fun p => if p = "/d/x.log" then some ⟨"x.log", true⟩ else none)
        [WalkEvent.entry "/d/x.log"]).map (fun v => v.info.isDir)) = [true] := by
  rfl

/-- C7 (amended): children of a directory-typed ValidSource may include directory
entries whose names carry the log suffix; nevertheless every source used to build an
endpoint has a non-directory file-info, because buildServer filters directory
children out before building endpoints. -/
theorem c7_amended :
    ∀ (vs : List ValidSourceDescriptor) (v : ValidSourceDescriptor),
      v ∈ endpointSources vs → v.info.isDir = false := by
  intro vs
  induction vs with
  | nil => intro v hv; simp [endpointSources] at hv
  | cons vsd rest ih =>
    intro v hv
    simp only [endpointSources] at hv
    rcases List.mem_append.mp hv with h1 | h2
    · by_cases hd : vsd.info.isDir
      · rw [if_pos hd] at h1
        cases hsub : vsd.sub with
        | none => rw [hsub] at h1; simp at h1
        | some subs =>
          rw [hsub] at h1
          have := List.mem_filter.mp h1
          simpa using this.2
      · rw [if_neg hd] at h1
        rcases List.mem_singleton.mp h1 with rfl
        simpa using hd
    · exact ih v h2

/-- C7 witness: a concrete leaf endpoint source has a non-directory file-info. -/
theorem c7_witness :
    (ValidSourceDescriptor.mk "/a.log" ⟨"a.log", false⟩ none).info.isDir = false :=
  c7_amended [ValidSourceDescriptor.mk "/a.log" ⟨"a.log", false⟩ none] _
    (by simp [endpointSources, ValidSourceDescriptor.info])

/-- A platform path in the slash-separated form filepath handles on unix hosts:
whether the path is rooted, and its separator-split components. -/
structure GoPath where
  abs : Bool
  comps : List String
deriving DecidableEq

/-- The component-stack step of filepath.Clean, processing components left to right
onto a reversed stack: a dot component is dropped; a dotdot component pops the last
kept component, except that at the root of a rooted path it is dropped and at the
head of a relative path it is kept; any other component is pushed. -/
def cleanRev (ab : Bool) : List String → List String → List String
  | acc, [] => acc.reverse
  | acc, c :: cs =>
    if c = "." then cleanRev ab acc cs
    else if c = ".." then
      match acc with
      | [] => if ab then cleanRev ab [] cs else cleanRev ab [".."] cs
      | a :: rest => if a = ".." then cleanRev ab (".." :: a :: rest) cs else cleanRev ab rest cs
    else cleanRev ab (c :: acc) cs

/-- filepath.Clean on the components of a path of the given rootedness. -/
def cleanComps (ab : Bool) (cs : List String) : List String := cleanRev ab [] cs

/-- filepath.Clean. -/
def clean (p : GoPath) : GoPath := ⟨p.abs, cleanComps p.abs p.comps⟩

/-- filepath.Join of two paths, as used at src/main.go lines 571 and 584:
concatenation followed by Clean; the result is rooted iff the first operand is. -/
def goJoin (a b : GoPath) : GoPath := ⟨a.abs, cleanComps a.abs (a.comps ++ b.comps)⟩

/-- Drops the longest common prefix of two component lists, returning both rests. -/
def dropCommon : List String → List String → List String × List String
  | x :: xs, y :: ys => if x = y then dropCommon xs ys else (x :: xs, y :: ys)
  | xs, ys => (xs, ys)

/-- filepath.Rel(base, target) as the lexical algorithm: both are Cleaned; it fails
when exactly one of them is rooted, or when inverting the uncommon rest of the base
would require traversing a dotdot; otherwise it climbs out of the uncommon base rest
and descends into the uncommon target rest. -/
def goRel (base target : GoPath) : Option GoPath :=
  if base.abs ≠ target.abs then none
  else
    let b := cleanComps base.abs base.comps
    let t := cleanComps target.abs target.comps
    let r := dropCommon b t
    if ".." ∈ r.1 then none
    else some ⟨false, List.replicate r.1.length ".." ++ r.2⟩

/-- A user-supplied path: either prefixed with the home marker, with rem the path
after the marker, or a plain path. -/
inductive UserPath where
  | marked (rem : GoPath)
  | plain (p : GoPath)
deriving DecidableEq

/-- Embeds resolveAbsolutePath (src/main.go lines 569-580): the home marker is
expanded by joining the remainder onto home, and a still-relative result is made
absolute against the working directory, which is what filepath.Abs does. -/
def resolveAbsolutePath (home cwd : GoPath) : UserPath → GoPath
  | .marked rem =>
    let j := goJoin home rem
    if j.abs then j else goJoin cwd j
  | .plain p => if p.abs then p else goJoin cwd p

/-- Embeds resolveRelativePath (src/main.go lines 582-589): a marker-prefixed path
is expanded against home and returned joined (and absolute); an absolute plain path
is rewritten relative to home through filepath.Rel; any other path is returned
untouched. -/
def resolveRelativePath (home : GoPath) : UserPath → Option GoPath
  | .marked rem => some (goJoin home rem)
  | .plain p => if p.abs then goRel home p else some p

/-- A relative component list that never climbs above its starting depth d: every
dotdot is matched by an earlier kept component. A marker remainder satisfying this
at depth zero is a path actually rooted at home. -/
def noClimb : Nat → List String → Bool
  | _, [] => true
  | d, c :: cs =>
    if c = "." then noClimb d cs
    else if c = ".." then (d != 0) && noClimb (d - 1) cs
    else noClimb (d + 1) cs

theorem cleanRev_normal (ab : Bool) :
    ∀ (cs : List String), "." ∉ cs → ".." ∉ cs →
      ∀ acc, cleanRev ab acc cs = acc.reverse ++ cs := by
  intro cs
  induction cs with
  | nil => intro _ _ acc; simp [cleanRev]
  | cons c cs ih =>
    intro h1 h2 acc
    have hc1 : ¬(c = ".") := fun hh => h1 (hh ▸ List.mem_cons_self c cs)
    have hc2 : ¬(c = "..") := fun hh => h2 (hh ▸ List.mem_cons_self c cs)
    have h1r : "." ∉ cs := fun hh => h1 (List.mem_cons_of_mem c hh)
    have h2r : ".." ∉ cs := fun hh => h2 (List.mem_cons_of_mem c hh)
    simp only [cleanRev, if_neg hc1, if_neg hc2]
    rw [ih h1r h2r (c :: acc)]
    simp

theorem cleanRev_skip (ab : Bool) :
    ∀ (h : List String), "." ∉ h → ".." ∉ h → ∀ (r acc : List String),
      cleanRev ab acc (h ++ r) = cleanRev ab (h.reverse ++ acc) r := by
  intro h
  induction h with
  | nil => intro _ _ r acc; simp
  | cons x xs ih =>
    intro h1 h2 r acc
    have hx1 : ¬(x = ".") := fun hh => h1 (hh ▸ List.mem_cons_self x xs)
    have hx2 : ¬(x = "..") := fun hh => h2 (hh ▸ List.mem_cons_self x xs)
    have h1r : "." ∉ xs := fun hh => h1 (List.mem_cons_of_mem x hh)
    have h2r : ".." ∉ xs := fun hh => h2 (List.mem_cons_of_mem x hh)
    simp only [List.cons_append, cleanRev, if_neg hx1, if_neg hx2, List.append_eq]
    rw [ih h1r h2r r (x :: acc)]
    have heq : xs.reverse ++ (x :: acc) = (x :: xs).reverse ++ acc := by simp
    rw [heq]

theorem cleanRev_lift :
    ∀ (r : List String) (ab : Bool) (acc pre : List String), ".." ∉ acc →
      noClimb acc.length r = true →
      cleanRev ab (acc ++ pre) r = pre.reverse ++ cleanRev ab acc r := by
  intro r
  induction r with
  | nil => intro ab acc pre _ _; simp [cleanRev, List.reverse_append]
  | cons c cs ih =>
    intro ab acc pre hacc hnc
    by_cases hdot : c = "."
    · subst hdot
      simp only [cleanRev, if_pos rfl]
      simp only [noClimb, if_pos rfl] at hnc
      exact ih ab acc pre hacc hnc
    · by_cases hdd : c = ".."
      · subst hdd
        have hne : ¬(".." = ".") := by decide
        simp only [noClimb, if_neg hne, eq_self_iff_true, if_true, Bool.and_eq_true,
          bne_iff_ne, ne_eq] at hnc
        cases acc with
        | nil => simp at hnc
        | cons a as =>
          have ha : ¬(a = "..") := fun hh => hacc (hh ▸ List.mem_cons_self a as)
          have hrest : ".." ∉ as := fun hh => hacc (List.mem_cons_of_mem a hh)
          have hlen : noClimb as.length cs = true := by
            have := hnc.2
            simpa using this
          simp only [List.cons_append, cleanRev, if_neg hne, eq_self_iff_true, if_true,
            if_neg ha]
          exact ih ab as pre hrest hlen
      · simp only [cleanRev, if_neg hdot, if_neg hdd]
        simp only [noClimb, if_neg hdot, if_neg hdd] at hnc
        have hacc2 : ".." ∉ c :: acc := by
          intro hh
          rcases List.mem_cons.mp hh with h1 | h2
          · exact hdd h1.symm
          · exact hacc h2
        have hlen : noClimb (c :: acc).length cs = true := by
          simpa using hnc
        have hx := ih ab (c :: acc) pre hacc2 hlen
        rw [← List.cons_append, hx]

theorem cleanRev_mode :
    ∀ (r : List String) (a1 a2 : Bool) (acc : List String), ".." ∉ acc →
      noClimb acc.length r = true → cleanRev a1 acc r = cleanRev a2 acc r := by
  intro r
  induction r with
  | nil => intro a1 a2 acc _ _; rfl
  | cons c cs ih =>
    intro a1 a2 acc hacc hnc
    by_cases hdot : c = "."
    · subst hdot
      simp only [cleanRev, if_pos rfl]
      simp only [noClimb, if_pos rfl] at hnc
      exact ih a1 a2 acc hacc hnc
    · by_cases hdd : c = ".."
      · subst hdd
        have hne : ¬(".." = ".") := by decide
        simp only [noClimb, if_neg hne, eq_self_iff_true, if_true, Bool.and_eq_true,
          bne_iff_ne, ne_eq] at hnc
        cases acc with
        | nil => simp at hnc
        | cons a as =>
          have ha : ¬(a = "..") := fun hh => hacc (hh ▸ List.mem_cons_self a as)
          have hrest : ".." ∉ as := fun hh => hacc (List.mem_cons_of_mem a hh)
          have hlen : noClimb as.length cs = true := by
            have := hnc.2
            simpa using this
          simp only [cleanRev, if_neg hne, eq_self_iff_true, if_true, if_neg ha]
          exact ih a1 a2 as hrest hlen
      · simp only [cleanRev, if_neg hdot, if_neg hdd]
        simp only [noClimb, if_neg hdot, if_neg hdd] at hnc
        have hacc2 : ".." ∉ c :: acc := by
          intro hh
          rcases List.mem_cons.mp hh with h1 | h2
          · exact hdd h1.symm
          · exact hacc h2
        have hlen : noClimb (c :: acc).length cs = true := by
          simpa using hnc
        exact ih a1 a2 (c :: acc) hacc2 hlen

theorem cleanRev_no_dots :
    ∀ (r : List String) (ab : Bool) (acc : List String), "." ∉ acc → ".." ∉ acc →
      noClimb acc.length r = true →
      "." ∉ cleanRev ab acc r ∧ ".." ∉ cleanRev ab acc r := by
  intro r
  induction r with
  | nil =>
    intro ab acc h1 h2 _
    simp only [cleanRev]
    constructor
    · simpa using h1
    · simpa using h2
  | cons c cs ih =>
    intro ab acc h1 h2 hnc
    by_cases hdot : c = "."
    · subst hdot
      simp only [cleanRev, if_pos rfl]
      simp only [noClimb, if_pos rfl] at hnc
      exact ih ab acc h1 h2 hnc
    · by_cases hdd : c = ".."
      · subst hdd
        have hne : ¬(".." = ".") := by decide
        simp only [noClimb, if_neg hne, eq_self_iff_true, if_true, Bool.and_eq_true,
          bne_iff_ne, ne_eq] at hnc
        cases acc with
        | nil => simp at hnc
        | cons a as =>
          have ha : ¬(a = "..") := fun hh => h2 (hh ▸ List.mem_cons_self a as)
          have h1r : "." ∉ as := fun hh => h1 (List.mem_cons_of_mem a hh)
          have h2r : ".." ∉ as := fun hh => h2 (List.mem_cons_of_mem a hh)
          have hlen : noClimb as.length cs = true := by
            have := hnc.2
            simpa using this
          simp only [cleanRev, if_neg hne, eq_self_iff_true, if_true, if_neg ha]
          exact ih ab as h1r h2r hlen
      · simp only [cleanRev, if_neg hdot, if_neg hdd]
        simp only [noClimb, if_neg hdot, if_neg hdd] at hnc
        have h1b : "." ∉ c :: acc := by
          intro hh
          rcases List.mem_cons.mp hh with hx | hx
          · exact hdot hx.symm
          · exact h1 hx
        have h2b : ".." ∉ c :: acc := by
          intro hh
          rcases List.mem_cons.mp hh with hx | hx
          · exact hdd hx.symm
          · exact h2 hx
        have hlen : noClimb (c :: acc).length cs = true := by
          simpa using hnc
        exact ih ab (c :: acc) h1b h2b hlen

theorem dropCommon_self : ∀ (h t : List String), dropCommon h (h ++ t) = ([], t) := by
  intro h
  induction h with
  | nil => intro t; cases t <;> rfl
  | cons x xs ih =>
    intro t
    simp only [List.cons_append, dropCommon, if_pos rfl]
    exact ih t

theorem goJoin_home (home rem : GoPath)
    (h1 : home.abs = true) (h2 : "." ∉ home.comps) (h3 : ".." ∉ home.comps)
    (h5 : noClimb 0 rem.comps = true) :
    goJoin home rem = ⟨true, home.comps ++ cleanComps false rem.comps⟩ := by
  unfold goJoin cleanComps
  rw [h1]
  have hstep : cleanRev true [] (home.comps ++ rem.comps) =
      cleanRev true (home.comps.reverse ++ []) rem.comps :=
    cleanRev_skip true home.comps h2 h3 rem.comps []
  rw [hstep, List.append_nil]
  have hlift := cleanRev_lift rem.comps true [] home.comps.reverse (by simp)
    (by simpa using h5)
  simp only [List.nil_append] at hlift
  rw [hlift, List.reverse_reverse]
  have hmode := cleanRev_mode rem.comps true false [] (by simp) (by simpa using h5)
  rw [hmode]

theorem goRel_append (h t : List String)
    (hh1 : "." ∉ h) (hh2 : ".." ∉ h) (ht1 : "." ∉ t) (ht2 : ".." ∉ t) :
    goRel ⟨true, h⟩ ⟨true, h ++ t⟩ = some ⟨false, t⟩ := by
  have hb : cleanComps true h = h := by
    unfold cleanComps
    rw [cleanRev_normal true h hh1 hh2 []]
    simp
  have hht1 : "." ∉ h ++ t := by
    intro hm
    rcases List.mem_append.mp hm with hx | hx
    · exact hh1 hx
    · exact ht1 hx
  have hht2 : ".." ∉ h ++ t := by
    intro hm
    rcases List.mem_append.mp hm with hx | hx
    · exact hh2 hx
    · exact ht2 hx
  have htc : cleanComps true (h ++ t) = h ++ t := by
    unfold cleanComps
    rw [cleanRev_normal true (h ++ t) hht1 hht2 []]
    simp
  simp [goRel, hb, htc, dropCommon_self]

/-- C8: the display mapping from absolute paths to home-relative form is
deterministic, and for every marker path whose remainder stays rooted under home
(it never climbs above home), resolving it to an absolute path and then converting
back yields the original home-relative remainder up to path normalization. -/
theorem c8_roundtrip (home rem cwd : GoPath)
    (h1 : home.abs = true) (h2 : "." ∉ home.comps) (h3 : ".." ∉ home.comps)
    (h4 : rem.abs = false) (h5 : noClimb 0 rem.comps = true) :
    (∀ u : UserPath, resolveRelativePath home u = resolveRelativePath home u) ∧
    resolveRelativePath home
        (UserPath.plain (resolveAbsolutePath home cwd (UserPath.marked rem))) =
      some (clean rem) := by
  refine ⟨fun u => rfl, ?_⟩
  obtain ⟨hab, hcs⟩ := home
  have h1b : hab = true := h1
  subst h1b
  have h2b : "." ∉ hcs := h2
  have h3b : ".." ∉ hcs := h3
  have hj := goJoin_home ⟨true, hcs⟩ rem rfl h2b h3b h5
  have habs : resolveAbsolutePath ⟨true, hcs⟩ cwd (UserPath.marked rem) =
      ⟨true, hcs ++ cleanComps false rem.comps⟩ := by
    simp only [resolveAbsolutePath]
    rw [hj]
    simp
  rw [habs]
  have hnd := cleanRev_no_dots rem.comps false [] (by simp) (by simp)
    (by simpa using h5)
  have hgr := goRel_append hcs (cleanComps false rem.comps) h2b h3b hnd.1 hnd.2
  have hrrp : resolveRelativePath ⟨true, hcs⟩
      (UserPath.plain ⟨true, hcs ++ cleanComps false rem.comps⟩) =
      goRel ⟨true, hcs⟩ ⟨true, hcs ++ cleanComps false rem.comps⟩ := by
    simp [resolveRelativePath]
  rw [hrrp, hgr]
  obtain ⟨rab, rcs⟩ := rem
  have h4b : rab = false := h4
  subst h4b
  rfl

/-- C8 witness: the round trip at a concrete home and remainder. -/
theorem c8_witness :
    resolveRelativePath ⟨true, ["srv", "logyard"]⟩
        (UserPath.plain
          (resolveAbsolutePath ⟨true, ["srv", "logyard"]⟩ ⟨true, []⟩
            (UserPath.marked ⟨false, ["captures", "demo.log"]⟩))) =
      some (clean ⟨false, ["captures", "demo.log"]⟩) :=
  (c8_roundtrip ⟨true, ["srv", "logyard"]⟩ ⟨false, ["captures", "demo.log"]⟩ ⟨true, []⟩
    rfl (by decide) (by decide) rfl (by decide)).2

/-- The duration value, in nanoseconds, that the poll timer is reset to at the end
of every cycle (src/main.go line 510): the Go expression
time.Duration(pollIntervalMs) converts the flag value to a Duration whose unit is
the nanosecond. -/
def pollResetNanos (pollIntervalMs : Nat) : Nat := pollIntervalMs

/-- The wait the claim states, for comparison: the configured interval interpreted
in milliseconds, expressed in nanoseconds. -/
def claimedPollNanos (pollIntervalMs : Nat) : Nat := pollIntervalMs * 1000000

/-- C4: with the default configuration value 2000 (src/main.go line 96), the wait
between successive stats of the source file is 2000 nanoseconds, not 2000
milliseconds: the conversion to time.Duration at line 510 is missing the
millisecond multiplier that the variable name pollIntervalMs and the spec promise. -/
theorem c4_poll_unit_bug : pollResetNanos 2000 ≠ claimedPollNanos 2000 := by decide

/-- Parses a slash-separated path string into rootedness plus components. -/
def parsePath (s : String) : GoPath :=
  ⟨s.startsWith "/", (s.splitOn "/").filter (fun c => c ≠ "")⟩

/-- Prints a relative GoPath the way filepath prints one. -/
def showRelPath (p : GoPath) : String :=
  if p.comps = [] then "." else String.intercalate "/" p.comps

/-- filepath.Rel on path strings, as buildHome uses it (src/main.go line 541). -/
def relString (base target : String) : Option String :=
  (goRel (parsePath base) (parsePath target)).map showRelPath

/-- The per-file link template (src/main.go line 528) with its two slots filled. -/
def sourceLinkHTML (p rel : String) : String :=
  "<li><a href=\"/src/" ++ p ++ "\">" ++ rel ++ "</a></li>"

/-- The per-directory group template (src/main.go line 527) with its slots filled. -/
def sourceGroupHTML (p inner : String) : String :=
  "<li><h3>" ++ p ++ "</h3><ul>" ++ inner ++ "</ul></li>"

/-- The links rendered for the children of one directory source (src/main.go lines
535-547): directory children are skipped, a child whose path cannot be made
relative to the source path is skipped, every other child yields one link. -/
def renderGroup (base : String) : List ValidSourceDescriptor → String
  | [] => ""
  | s :: rest =>
    (if s.info.isDir then ""
     else
       match relString base s.path with
       | none => ""
       | some r => sourceLinkHTML s.path r) ++ renderGroup base rest

/-- The listing body buildHome renders (src/main.go lines 532-552): one group per
directory source, one direct link per other source. -/
def renderSourcesList : List ValidSourceDescriptor → String
  | [] => ""
  | vsd :: rest =>
    (if vsd.info.isDir then
      sourceGroupHTML vsd.path
        (renderGroup vsd.path (match vsd.sub with | some subs => subs | none => []))
     else sourceLinkHTML vsd.path vsd.path) ++ renderSourcesList rest

/-- strings.Replace with count one: the first occurrence of pat is replaced. -/
def replaceOnce (s pat repl : String) : String :=
  match s.splitOn pat with
  | [] => s
  | x :: rest => if rest = [] then s else x ++ repl ++ String.intercalate pat rest

/-- The full page buffer buildHome caches (src/main.go lines 553-554): the embedded
index page with the rendered source list substituted at the placeholder. -/
def buildHomeBytes (index : String) (vs : List ValidSourceDescriptor) : String :=
  replaceOnce index "<!--SOURCES-->" (renderSourcesList vs)

/-- The atomically swapped cachedHome cell (src/main.go lines 115-128, 396 and 554):
it holds nothing before the first store and afterwards the last complete buffer
stored into it; a store replaces the whole value, never bytes in place. -/
structure PageCache where
  cachedHome : Option String
deriving DecidableEq

/-- cachedHome.Store of a whole buffer. -/
def storeHome (buf : String) : PageCache → PageCache := fun _ => ⟨some buf⟩

/-- cachedHome.Load. -/
def loadHome (c : PageCache) : Option String := c.cachedHome

/-- buildHome (src/main.go lines 530-555): renders the catalog once and stores the
complete buffer into the cache. -/
def buildHome (index : String) (vs : List ValidSourceDescriptor) (c : PageCache) :
    PageCache :=
  storeHome (buildHomeBytes index vs) c

/-- C9: rendering the catalog listing page is pure: two runs of the renderer over
the same catalog produce identical buffers; and after buildHome every load of the
page cache observes exactly the one complete rendered buffer, never a partial one,
since a store swaps the whole value. -/
theorem c9_pure_render :
    ∀ (index : String) (vs : List ValidSourceDescriptor) (c : PageCache),
      buildHomeBytes index vs = buildHomeBytes index vs ∧
      loadHome (buildHome index vs c) = some (buildHomeBytes index vs) :=
  fun _ _ _ => ⟨rfl, rfl⟩

/-- A live upgraded websocket connection; a failed upgrade leaves the Go connection
pointer nil, modelled as none. -/
structure WsConn where
  id : Nat
deriving DecidableEq

/-- What the streaming endpoint handler does with the upgrade result. -/
structure WsHandlerRun where
  logReadsStarted : Bool
  logReadsConn : Option WsConn
  streamStarted : Bool
  streamConn : Option WsConn
deriving DecidableEq

/-- Embeds the streaming endpoint handler (src/main.go lines 440-449): when
upgrader.Upgrade fails the handler only logs the error and falls through without
returning, so the inbound-drain task logReads and the Tail Session streamLogFile
are both started unconditionally with whatever connection value Upgrade returned:
nil on failure. -/
def wsEndpointHandler (upgraded : Option WsConn) : WsHandlerRun :=
  ⟨true, upgraded, true, upgraded⟩

/-- C10: on a failed upgrade the handler still starts the inbound-drain task and
the Tail Session, both holding the nil connection; both then dereference it
(conn.Close at line 460 or 472, conn.ReadMessage at line 518) and panic. -/
theorem c10_upgrade_bug :
    (wsEndpointHandler none).streamStarted = true ∧
    (wsEndpointHandler none).streamConn = none ∧
    (wsEndpointHandler none).logReadsStarted = true ∧
    (wsEndpointHandler none).logReadsConn = none :=
  ⟨rfl, rfl, rfl, rfl⟩

end Logyard
